import Mathlib

/-!
Shallow embedding of the table-aware document splitter of the Banking-assist
RAG repository (`src/document_processors/table_aware_splitter.py`) and of the
numeric extractor of the banking document loader
(`src/document_processors/banking_document_loader.py`).

Strings are modelled as `List Char`; Python dictionaries used as chunk
metadata are modelled as structure fields; the metadata values that the
claims are about (chunk type, table id, table title, part index, resolved
cross references) are carried as typed fields.
-/

namespace BankingRag

/-- Strings are modelled as lists of characters. -/
abbrev Str := List Char

/-- Whitespace characters stripped by Python `str.strip()` (ASCII range). -/
def isPySpace (c : Char) : Bool :=
  c = ' ' || c = '\t' || c = '\n' || c = '\r' || c = '\x0b' || c = '\x0c'

/-- Python `s.strip()`: remove leading and trailing whitespace. -/
def pyStrip (s : Str) : Str :=
  (((s.dropWhile isPySpace).reverse).dropWhile isPySpace).reverse

/-- Python slice `text[a:b]` for `0 ≤ a ≤ b` (indices clamp at the ends). -/
def sliceStr (text : Str) (a b : Nat) : Str :=
  (text.drop a).take (b - a)

/-- Python `s.startswith(p)` is `leadsWith p s`. -/
def leadsWith : Str → Str → Bool
  | [], _ => true
  | _ :: _, [] => false
  | a :: as_, b :: bs => a == b && leadsWith as_ bs

/-- Python `n in s` (substring containment) is `containsStr n s`. -/
def containsStr (n : Str) : Str → Bool
  | [] => leadsWith n []
  | c :: cs => leadsWith n (c :: cs) || containsStr n cs

/-- Python `s.split('\n')`. -/
def splitLines : Str → List Str
  | [] => [[]]
  | c :: cs =>
    if c = '\n' then [] :: splitLines cs
    else
      match splitLines cs with
      | [] => [[c]]
      | h :: t => (c :: h) :: t

/-- Python `'\n'.join(lines)`. -/
def joinNL : List Str → Str
  | [] => []
  | [l] => l
  | l :: ls => l ++ '\n' :: joinNL ls

/-- Decimal rendering of a natural number, as used in Python f-strings. -/
def natToStr (n : Nat) : Str :=
  Nat.toDigits 10 n

/-- The configuration stored by `TableAwareTextSplitter.__init__`
(`chunk_size`, `chunk_overlap`, `preserve_table_context`; defaults
1000 / 200 / true). -/
structure SplitterConfig where
  chunkSize : Nat
  chunkOverlap : Nat
  preserveTableContext : Bool
deriving DecidableEq, Repr

/-- Constructing the splitter.  The repository's own `__init__` stores the
configuration without any validation; it then constructs the langchain
`RecursiveCharacterTextSplitter`, whose base-class constructor (outside this
repository) raises `ValueError` exactly when `chunk_overlap > chunk_size`.
The error string models that `ValueError`. -/
def mkSplitter (chunkSize chunkOverlap : Nat) (preserve : Bool) :
    Except Str SplitterConfig :=
  if chunkSize < chunkOverlap then
    Except.error ("larger chunk overlap than chunk size").data
  else
    Except.ok ⟨chunkSize, chunkOverlap, preserve⟩

/-- The kind of a chunk, the `chunk_type` metadata value
(`'text'`, `'table'`, `'table_part'`). -/
inductive ChunkType where
  | text
  | table
  | tablePart
deriving DecidableEq, Repr

/-- One resolved cross-reference record, as appended by
`_enhance_with_cross_references` (`referenced_table`, `table_title`,
`reference_text`). -/
structure CrossRef where
  referencedTable : Str
  tableTitle : Str
  referenceText : Str
deriving DecidableEq, Repr

/-- A chunk (`langchain.schema.Document`) with the metadata fields the
claims are about.  `partIndex` carries the part number that the source
embeds in the `context` metadata string (`"... (Part k)"`) for table parts
and in the `part` field for text sections; `crossRefs` is empty until
`_enhance_with_cross_references` fills it. -/
structure Chunk where
  content : Str
  chunkType : ChunkType
  tableId : Option Str := none
  tableTitle : Option Str := none
  context : Str := []
  partIndex : Option Nat := none
  crossRefs : List CrossRef := []
deriving DecidableEq, Repr

/-- A table boundary as produced by `_extract_tables`:
`{id, title, content, start, end}` (the field `end` is called `stop`). -/
structure TableB where
  id : Str
  title : Str
  content : Str
  start : Nat
  stop : Nat
deriving DecidableEq, Repr

/-- A section as produced by `_split_around_tables`: either a stripped text
gap or a table span. -/
inductive Section where
  | text (content : Str) (context : Str)
  | table (content : Str) (tableId : Str) (tableTitle : Str) (context : Str)
deriving DecidableEq, Repr

/-- The `content` entry of a section dictionary. -/
def Section.content : Section → Str
  | .text c _ => c
  | .table c _ _ _ => c

/-- The recursion of `_split_around_tables`, carrying Python's `last_end`. -/
def splitAroundGo (text : Str) : Nat → List TableB → List Section
  | lastEnd, [] =>
    if lastEnd < text.length then
      let rem := pyStrip (text.drop lastEnd)
      if rem ≠ [] then [Section.text rem ("Text after tables").data] else []
    else []
  | lastEnd, t :: ts =>
    (if lastEnd < t.start then
      let pre := pyStrip (sliceStr text lastEnd t.start)
      if pre ≠ [] then
        [Section.text pre (("Text before ").data ++ t.id)]
      else []
    else [])
    ++ Section.table t.content t.id t.title
         (("Table ").data ++ t.id ++ (": ").data ++ t.title)
       :: splitAroundGo text t.stop ts

/-- The partitioner `_split_around_tables(text, tables)`. -/
def splitAroundTables (text : Str) (tables : List TableB) : List Section :=
  splitAroundGo text 0 tables

/-- The invariant of the boundary list handed to `_split_around_tables`:
boundaries are sorted and non-overlapping (each starts at or after the
previous end), lie inside the text, and each stored `content` is exactly
the spanned slice of the text (which holds by construction in
`_extract_tables`, where `content` is the regex match over the text). -/
def tablesValidB (text : Str) : Nat → List TableB → Bool
  | lastEnd, [] => decide (lastEnd ≤ text.length)
  | lastEnd, t :: ts =>
    decide (lastEnd ≤ t.start) && decide (t.start ≤ t.stop) &&
    decide (t.content = sliceStr text t.start t.stop) &&
    tablesValidB text t.stop ts

/-- Interleaving: `weave w0 [(c1, w1), (c2, w2), ...]` is
`w0 ++ c1 ++ w1 ++ c2 ++ w2 ++ ...`:
the original text as section contents interleaved with the whitespace
runs that stripping removed. -/
def weave : Str → List (Str × Str) → Str
  | w0, [] => w0
  | w0, (c, w) :: rest => w0 ++ c ++ weave w rest

/-- The table-section dictionary handed to `_process_table_section` and
`_split_large_table` (`content`, `table_id`, `table_title`, `context`). -/
structure TableSec where
  content : Str
  tableId : Str
  tableTitle : Str
  context : Str
deriving DecidableEq, Repr

/-- The header/data line classification loop of `_split_large_table`:
a `###` title line is a header line; a pipe line containing `---` is the
separator and ends header mode; pipe lines are header rows while in header
mode and data rows afterwards; any other line follows the current mode. -/
def classifyGo : Bool → List Str → List Str × List Str
  | _, [] => ([], [])
  | inHeader, l :: ls =>
    if leadsWith ("###").data l then
      let (h, d) := classifyGo inHeader ls
      (l :: h, d)
    else if leadsWith ("|").data l && containsStr ("---").data l then
      let (h, d) := classifyGo false ls
      (l :: h, d)
    else if leadsWith ("|").data l && inHeader then
      let (h, d) := classifyGo inHeader ls
      (l :: h, d)
    else if leadsWith ("|").data l then
      let (h, d) := classifyGo inHeader ls
      (h, l :: d)
    else if inHeader then
      let (h, d) := classifyGo inHeader ls
      (l :: h, d)
    else
      let (h, d) := classifyGo inHeader ls
      (h, l :: d)

/-- The `header_lines` and `data_lines` of `_split_large_table` for a table
content string. -/
def tableHeaderData (content : Str) : List Str × List Str :=
  classifyGo true (splitLines content)

/-- The source's `header_text = '\n'.join(header_lines)`. -/
def headerTextOf (content : Str) : Str :=
  joinNL (tableHeaderData content).1

/-- The data rows of a table content string. -/
def dataLinesOf (content : Str) : List Str :=
  (tableHeaderData content).2

/-- One table-part chunk: `header_text + '\n' + '\n'.join(current_lines)`
with `table_part` metadata; `count` is `len(chunks)` at flush time, so the
part number in the context string is `count + 1`. -/
def mkPart (sec : TableSec) (headerText : Str) (count : Nat)
    (cur : List Str) : Chunk :=
  { content := headerText ++ '\n' :: joinNL cur
    chunkType := .tablePart
    tableId := some sec.tableId
    tableTitle := some sec.tableTitle
    context := sec.context ++ (" (Part ").data ++ natToStr (count + 1) ++ (")").data
    partIndex := some (count + 1) }

/-- The data-row accumulation loop of `_split_large_table`.  `count` is the
number of chunks emitted so far, `cur` the accumulated data lines of the
current part, `size` Python's `current_size`
(`len(header_text) + Σ (len(line) + 1)` over `cur`). -/
def splitLoop (cfg : SplitterConfig) (sec : TableSec) (headerText : Str) :
    Nat → List Str → Nat → List Str → List Chunk
  | count, cur, _, [] =>
    if cur ≠ [] then [mkPart sec headerText count cur] else []
  | count, cur, size, l :: ls =>
    if size + (l.length + 1) > cfg.chunkSize ∧ cur ≠ [] then
      mkPart sec headerText count cur ::
        splitLoop cfg sec headerText (count + 1) [l]
          (headerText.length + (l.length + 1)) ls
    else
      splitLoop cfg sec headerText count (cur ++ [l])
        (size + (l.length + 1)) ls

/-- The row splitter `_split_large_table(section, base_metadata)`. -/
def splitLargeTable (cfg : SplitterConfig) (sec : TableSec) : List Chunk :=
  splitLoop cfg sec (headerTextOf sec.content) 0 []
    (headerTextOf sec.content).length (dataLinesOf sec.content)

/-- The dispatcher `_process_table_section`: a table whose content fits in `chunk_size`
becomes one whole-table chunk; a larger one is routed to
`_split_large_table`. -/
def processTableSection (cfg : SplitterConfig) (sec : TableSec) : List Chunk :=
  if sec.content.length ≤ cfg.chunkSize then
    [{ content := sec.content
       chunkType := .table
       tableId := some sec.tableId
       tableTitle := some sec.tableTitle
       context := sec.context }]
  else
    splitLargeTable cfg sec

/-- Splitting on a separator, with fuel (`fuel ≥ length` at the top call).
For a nonempty separator this is Python `text.split(sep)`; langchain turns
the empty separator into the list of single characters. -/
def splitSepGo (sep : Str) : Nat → Str → Str → List Str
  | _, cur, [] => [cur]
  | 0, cur, s => [cur ++ s]
  | fuel + 1, cur, c :: cs =>
    if leadsWith sep (c :: cs) then
      cur :: splitSepGo sep fuel [] ((c :: cs).drop sep.length)
    else
      splitSepGo sep fuel (cur ++ [c]) cs

/-- Modelled from the spec: splitting one piece of text by one separator of
the ordered separator list of the generic recursive splitter (the source
delegates this to langchain's `RecursiveCharacterTextSplitter`, which is
not part of this repository). -/
def splitOnSep (sep : Str) (s : Str) : List Str :=
  if sep = [] then s.map (fun c => [c])
  else splitSepGo sep s.length [] s

/-- Modelled from the spec: the recursive splitting pass of the generic
text chunker — "recursively splits content using the first separator that
yields pieces within `max_chunk_size`, falling back to finer-grained
separators until pieces fit".  Each separator level splits exactly the
pieces still over the budget; a piece no separator can divide is kept
whole (the indivisible token). -/
def recSplitSpec (chunkSize : Nat) : List Str → List Str → List Str
  | [], pieces => pieces
  | sep :: rest, pieces =>
    recSplitSpec chunkSize rest
      (pieces.flatMap fun p =>
        if p.length ≤ chunkSize then [p] else splitOnSep sep p)

/-- The last `n` characters of a string. -/
def takeLast (n : Nat) (s : Str) : Str :=
  s.drop (s.length - n)

/-- Modelled from the spec: the merge pass of the generic text chunker —
pieces are accumulated into chunks of at most `max_chunk_size` characters,
`overlap_size` characters of trailing context are repeated into the next
chunk's leading edge (capped so the budget still holds), and a single
indivisible piece larger than the budget is emitted as-is, never
truncated. -/
def mergeGo (chunkSize overlap : Nat) : Str → List Str → List Str
  | cur, [] => if cur ≠ [] then [cur] else []
  | cur, p :: ps =>
    if cur.length + p.length ≤ chunkSize then
      mergeGo chunkSize overlap (cur ++ p) ps
    else if p.length ≤ chunkSize then
      (if cur ≠ [] then [cur] else []) ++
        mergeGo chunkSize overlap
          (takeLast (min overlap (chunkSize - p.length)) cur ++ p) ps
    else
      (if cur ≠ [] then [cur] else []) ++
        p :: mergeGo chunkSize overlap (takeLast (min overlap chunkSize) p) ps

/-- The separator preferences handed to the base splitter
(`["\n\n", "\n", ".", "!", "?", ",", " ", ""]`). -/
def defaultSeps : List Str :=
  [('\n' :: ['\n']), ['\n'], ['.'], ['!'], ['?'], [','], [' '], []]

/-- Modelled from the spec: the generic size-bounded recursive splitter for
non-table sections (`self.base_splitter.split_documents` in
`_process_text_section`; langchain code, not part of this repository). -/
def textSplitSpec (cfg : SplitterConfig) (text : Str) : List Str :=
  mergeGo cfg.chunkSize cfg.chunkOverlap []
    (recSplitSpec cfg.chunkSize defaultSeps [text])

/-- Wrapping the text pieces as chunks with the metadata of
`_process_text_section` (`chunk_type='text'`, `context`, `part`). -/
def mkTextChunks (context : Str) (total : Nat) : Nat → List Str → List Chunk
  | _, [] => []
  | i, p :: ps =>
    { content := p
      chunkType := .text
      context := context
      partIndex := if 1 < total then some (i + 1) else none } ::
      mkTextChunks context total (i + 1) ps

/-- The text handler `_process_text_section(section, base_metadata)` over the spec-modelled
base splitter. -/
def processTextSection (cfg : SplitterConfig) (content context : Str) :
    List Chunk :=
  mkTextChunks context (textSplitSpec cfg content).length 0
    (textSplitSpec cfg content)

/-- Case-insensitive literal matching (`re.IGNORECASE`): on success returns
the consumed characters of the subject (case preserved) and the rest. -/
def matchCi : Str → Str → Option (Str × Str)
  | [], s => some ([], s)
  | _ :: _, [] => none
  | p :: ps, c :: cs =>
    if p.toLower = c.toLower then
      (matchCi ps cs).map fun mr => (c :: mr.1, mr.2)
    else none

/-- Pattern `\d+` (greedy): at least one digit, then the rest. -/
def matchD1 (s : Str) : Option (Str × Str) :=
  let d := s.takeWhile Char.isDigit
  if d = [] then none else some (d, s.dropWhile Char.isDigit)

/-- Pattern `[A-Z]?` under `re.IGNORECASE` (an optional ASCII letter). -/
def optLetterCI : Str → Str × Str
  | [] => ([], [])
  | c :: cs => if c.isAlpha then ([c], cs) else ([], c :: cs)

/-- Pattern `Table [A-Z]?\d+\.\d+` under `re.IGNORECASE`: the shared tail of all
three alternatives of `cross_ref_pattern`.  The greedy sub-matches need no
backtracking here: each is followed by a character its own class
excludes. -/
def matchTableRefCI (s : Str) : Option (Str × Str) := do
  let (m1, r1) ← matchCi ("Table ").data s
  let (ml, r2) := optLetterCI r1
  let (m2, r3) ← matchD1 r2
  match r3 with
  | '.' :: r4 =>
    let (m3, r5) ← matchD1 r4
    return (m1 ++ ml ++ m2 ++ '.' :: m3, r5)
  | _ => none

/-- First alternative of `cross_ref_pattern`: `see Table [A-Z]?\d+\.\d+`. -/
def matchSeeAlt (s : Str) : Option (Str × Str) := do
  let (m1, r1) ← matchCi ("see ").data s
  let (m2, r2) ← matchTableRefCI r1
  return (m1 ++ m2, r2)

/-- Second alternative: `refer to Table [A-Z]?\d+\.\d+`. -/
def matchReferAlt (s : Str) : Option (Str × Str) := do
  let (m1, r1) ← matchCi ("refer to ").data s
  let (m2, r2) ← matchTableRefCI r1
  return (m1 ++ m2, r2)

/-- A match of `cross_ref_pattern` anchored at the current position:
the three alternatives are tried in the pattern's order, so the longer
`see .../refer to ...` forms win over the bare `Table ...` mention. -/
def matchAt (s : Str) : Option (Str × Str) :=
  match matchSeeAlt s with
  | some mr => some mr
  | none =>
    match matchReferAlt s with
    | some mr => some mr
    | none => matchTableRefCI s

/-- The scan of `finditer`: at each position the anchored match is tried;
a match is emitted with its start position and the scan resumes after its
end, otherwise the scan advances one character.  `fuel ≥ length` at the
top call. -/
def scanPos : Nat → Str → Nat → List (Nat × Str)
  | _, [], _ => []
  | 0, _ :: _, _ => []
  | fuel + 1, c :: cs, pos =>
    match matchAt (c :: cs) with
    | some (m, r) => (pos, m) :: scanPos fuel r (pos + m.length)
    | none => scanPos fuel cs (pos + 1)

/-- The scan `self.cross_ref_pattern.finditer(content)`: the matches with their
start offsets, leftmost first (the fuel is the subject's length, which the
scan never exhausts since every step consumes at least one character). -/
def findIter (s : Str) : List (Nat × Str) :=
  scanPos s.length s 0

/-- The id extraction `re.search(r'Table ([A-Z]?\d+\.\d+)', ref_text)` — case-sensitive, the
captured group only.  Anchored attempt at one position. -/
def matchTableIdCS (s : Str) : Option Str := do
  let (_, r1) ← if leadsWith ("Table ").data s then
      some ((("Table ").data : Str), s.drop 6)
    else none
  let (ml, r2) :=
    match r1 with
    | c :: cs => if 'A' ≤ c ∧ c ≤ 'Z' then ([c], cs) else (([] : Str), r1)
    | [] => (([] : Str), r1)
  let (m2, r3) ← matchD1 r2
  match r3 with
  | '.' :: r4 =>
    let (m3, _) ← matchD1 r4
    return ml ++ m2 ++ '.' :: m3
  | _ => none

/-- Semantics of `re.search`: the first position where the anchored pattern matches. -/
def searchTableId : Str → Option Str
  | [] => none
  | c :: cs =>
    match matchTableIdCS (c :: cs) with
    | some id => some id
    | none => searchTableId cs

/-- Whether a chunk counts as a table chunk in the two metadata scans
(`chunk_type in ['table', 'table_part']`). -/
def isTableKind (c : Chunk) : Bool :=
  c.chunkType = ChunkType.table || c.chunkType = ChunkType.tablePart

/-- The `table_map` entries contributed by one chunk in
`_enhance_with_cross_references`: a table or table-part chunk with a truthy
(nonempty) `table_id` maps it to its title (`'Unknown Table'` when the
title is missing). -/
def tableMapEntry (c : Chunk) : List (Str × Str) :=
  if isTableKind c then
    match c.tableId with
    | some id =>
      if id ≠ [] then [(id, c.tableTitle.getD ("Unknown Table").data)] else []
    | none => []
  else []

/-- The `table_map` built by the first pass of
`_enhance_with_cross_references`, in chunk order. -/
def buildTableMap : List Chunk → List (Str × Str)
  | [] => []
  | c :: cs => tableMapEntry c ++ buildTableMap cs

/-- Python dict lookup over the entry list: the last write wins. -/
def tmGet (m : List (Str × Str)) (k : Str) : Option Str :=
  (m.reverse.find? fun p => p.1 == k).map Prod.snd

/-- One cross-reference resolution step: extract the table id from the
matched reference text (case-sensitively) and keep the mention only when
the id is a key of `table_map`. -/
def resolveRef (tm : List (Str × Str)) (refText : Str) : Option CrossRef :=
  match searchTableId refText with
  | some id =>
    match tmGet tm id with
    | some title => some ⟨id, title, refText⟩
    | none => none
  | none => none

/-- The second pass of `_enhance_with_cross_references` on one chunk:
scan the content, resolve each mention, and store the resolved list
(stored only when nonempty in the source; an absent key reads back as the
empty list). -/
def enhanceChunk (tm : List (Str × Str)) (c : Chunk) : Chunk :=
  { c with crossRefs := (findIter c.content).filterMap fun pm => resolveRef tm pm.2 }

/-- The resolver pass `_enhance_with_cross_references(chunks)`. -/
def enhanceWithCrossRefs (chunks : List Chunk) : List Chunk :=
  chunks.map (enhanceChunk (buildTableMap chunks))

/-- One entry of the `tables` map of `get_table_summary`. -/
structure TableInfo where
  title : Option Str
  parts : Nat
  totalContentLength : Nat
deriving DecidableEq, Repr

/-- One step of the `tables` accumulation of `get_table_summary`: a table
chunk with a truthy id inserts an empty record on first sight, then bumps
`parts` and `total_content_length`. -/
def summStep (ts : List (Str × TableInfo)) (c : Chunk) : List (Str × TableInfo) :=
  if isTableKind c then
    match c.tableId with
    | some id =>
      if id ≠ [] then
        if (ts.find? fun p => p.1 == id).isSome then
          ts.map fun p =>
            if p.1 == id then
              (p.1, ⟨p.2.title, p.2.parts + 1,
                     p.2.totalContentLength + c.content.length⟩)
            else p
        else
          ts ++ [(id, ⟨c.tableTitle, 1, c.content.length⟩)]
      else ts
    | none => ts
  else ts

/-- The `tables` map of `get_table_summary`, built over the chunk list. -/
def buildSummTables : List (Str × TableInfo) → List Chunk → List (Str × TableInfo)
  | ts, [] => ts
  | ts, c :: cs => buildSummTables (summStep ts c) cs

/-- The count `sum(1 for chunk in chunks if chunk.metadata.get('cross_references'))`:
the number of chunks whose stored cross-reference list is truthy
(nonempty). -/
def countChunksWithRefs : List Chunk → Nat
  | [] => 0
  | c :: cs => (if c.crossRefs ≠ [] then 1 else 0) + countChunksWithRefs cs

/-- The record returned by `get_table_summary`. -/
structure TableSummary where
  totalTables : Nat
  tables : List (Str × TableInfo)
  crossReferencesFound : Nat
deriving DecidableEq, Repr

/-- The summary builder `get_table_summary(chunks)`. -/
def getTableSummary (chunks : List Chunk) : TableSummary :=
  { totalTables := (buildSummTables [] chunks).length
    tables := buildSummTables [] chunks
    crossReferencesFound := countChunksWithRefs chunks }

/-- Rate pattern `(\d+\.?\d*)\s*%` anchored at one position: the captured
number and the rest after the `%`.  The greedy sub-matches need no
backtracking: digits never satisfy the following `\s*` or `%`. -/
def rateStep (s : Str) : Option (Str × Str) := do
  let (d1, r1) ← matchD1 s
  let (dot, r2) :=
    match r1 with
    | '.' :: t => ((['.'] : Str), t)
    | _ => (([] : Str), r1)
  let d2 := r2.takeWhile Char.isDigit
  let r3 := r2.dropWhile Char.isDigit
  let r4 := r3.dropWhile isPySpace
  match r4 with
  | '%' :: r5 => some (d1 ++ dot ++ d2, r5)
  | _ => none

/-- Pattern of zero or more comma groups, each a comma and three digits
(greedy): the consumed groups and the rest. -/
def commaGroups : Str → Str × Str
  | ',' :: a :: b :: c :: r =>
    if a.isDigit && b.isDigit && c.isDigit then
      let (g, rest) := commaGroups r
      (',' :: a :: b :: c :: g, rest)
    else ([], ',' :: a :: b :: c :: r)
  | s => ([], s)

/-- Dollar pattern `\$(\d{1,3}(?:,\d{3})*(?:\.\d{2})?)` anchored at one
position: the captured amount (without the `$`) and the rest. -/
def dollarStep (s : Str) : Option (Str × Str) :=
  match s with
  | '$' :: r0 =>
    let ds := (r0.takeWhile Char.isDigit).take 3
    if ds = [] then none
    else
      let r1 := r0.drop ds.length
      let (gs, r2) := commaGroups r1
      let (dec, r3) :=
        match r2 with
        | '.' :: a :: b :: r =>
          if a.isDigit && b.isDigit then (('.' :: [a, b] : Str), r)
          else (([] : Str), r2)
        | _ => (([] : Str), r2)
      some (ds ++ gs ++ dec, r3)
  | _ => none

/-- Term pattern `(\d+)\s*(?:month|year)s?` under `re.IGNORECASE` anchored
at one position: the captured integer and the rest. -/
def termStep (s : Str) : Option (Str × Str) := do
  let (d, r1) ← matchD1 s
  let r2 := r1.dropWhile isPySpace
  let (_, r3) ←
    match matchCi ("month").data r2 with
    | some mr => some mr
    | none => matchCi ("year").data r2
  match r3 with
  | c :: r4 => if c.toLower = 's' then some (d, r4) else some (d, r3)
  | [] => some (d, r3)

/-- The scan of `re.findall` for a single-group pattern: the captures in
order of occurrence, matches not overlapping, resuming after each match
end.  `fuel ≥ length` at the top call; every step consumes at least one
character on success. -/
def scanCap (step : Str → Option (Str × Str)) : Nat → Str → List Str
  | _, [] => []
  | 0, _ :: _ => []
  | fuel + 1, c :: cs =>
    match step (c :: cs) with
    | some (cap, r) => cap :: scanCap step fuel r
    | none => scanCap step fuel cs

/-- The scan `re.findall(rate_pattern, content)`. -/
def findallRates (s : Str) : List Str := scanCap rateStep s.length s

/-- The scan `re.findall(dollar_pattern, content)`. -/
def findallDollars (s : Str) : List Str := scanCap dollarStep s.length s

/-- The scan `re.findall(term_pattern, content, re.IGNORECASE)`. -/
def findallTerms (s : Str) : List Str := scanCap termStep s.length s

/-- Python `int(term)` on a digit string. -/
def parseNat (s : Str) : Nat :=
  s.foldl (fun n c => n * 10 + (c.toNat - ('0').toNat)) 0

/-- Python `float` on the decimal strings captured by the three patterns,
modelled exactly over the rationals (machine floating point plays no role
in any claim: the captured strings are compared as exact decimals). -/
def parseDecimal (s : Str) : ℚ :=
  let ip := s.takeWhile fun c => c ≠ '.'
  match s.dropWhile fun c => c ≠ '.' with
  | [] => (parseNat ip : ℚ)
  | _ :: fp => (parseNat ip : ℚ) + (parseNat fp : ℚ) / (10 : ℚ) ^ fp.length

/-- Python `amount.replace(',', '')`. -/
def stripCommas (s : Str) : Str :=
  s.filter fun c => c ≠ ','

/-- The `numerical_data` payload of `_extract_numerical_data`; a pattern
with no matches leaves its key out of the Python dict, modelled as the
empty list. -/
structure NumericData where
  rates : List ℚ
  dollarAmounts : List ℚ
  terms : List Nat
deriving DecidableEq, Repr

/-- The extractor `_extract_numerical_data(document)`: the metadata is attached only
when at least one of the three lists is nonempty. -/
def extractNumericalData (content : Str) : Option NumericData :=
  let rates := findallRates content
  let amounts := findallDollars content
  let terms := findallTerms content
  if rates = [] ∧ amounts = [] ∧ terms = [] then none
  else some
    { rates := rates.map parseDecimal
      dollarAmounts := amounts.map fun a => parseDecimal (stripCommas a)
      terms := terms.map parseNat }

/-- The sum of `len(line) + 1` over a line list: the size accounting of
`_split_large_table` (`+1` for the newline of each data row). -/
def sumLens (ls : List Str) : Nat :=
  (ls.map fun l => l.length + 1).sum

/-- A chunk carrying two resolved cross-references, used to separate
"number of chunks with references" from "number of reference entries". -/
def demoChunk : Chunk :=
  { content := ("see Table 1.1 and Table 2.2").data
    chunkType := .text
    crossRefs :=
      [⟨("1.1").data, ("A").data, ("see Table 1.1").data⟩,
       ⟨("2.2").data, ("B").data, ("Table 2.2").data⟩] }

/-- A concrete whole-table chunk (witness input). -/
def tableChunkW : Chunk :=
  { content := ("|x|").data
    chunkType := .table
    tableId := some (("1.1").data)
    tableTitle := some (("Rates").data) }

/-- A concrete text chunk mentioning Table 1.1 (witness input). -/
def textChunkW : Chunk :=
  { content := ("see Table 1.1").data
    chunkType := .text }

/-- A concrete oversized table section (witness input): the header block is
the title, one header row and the separator row; two data rows follow. -/
def tableSecW : TableSec :=
  { content := ("### Table 9.9: Big\n|h|\n|---|\n|aaaaaaaa|\n|bbbbbbbb|").data
    tableId := ("9.9").data
    tableTitle := ("Big").data
    context := ("Table 9.9: Big").data }

/-- A concrete small table section (witness input). -/
def smallSecW : TableSec :=
  { content := ("### Table 3.3: S\n|a|b|\n|---|---|\n|1|2|").data
    tableId := ("3.3").data
    tableTitle := ("S").data
    context := ("Table 3.3: S").data }

/-- A default chunk value for `List.getD` in witness statements. -/
def dChunk : Chunk :=
  { content := [], chunkType := .text }

/-- A concrete document text with one embedded table (witness input). -/
def textW2 : Str :=
  ("  intro text\n### Table 1.1: T\n|a|b|\n tail ").data

/-- The table boundary detected in `textW2`: its content is exactly the
slice of the text between offsets 13 and 36 (witness input). -/
def tableW2 : TableB :=
  { id := ("1.1").data
    title := ("T").data
    content := ("### Table 1.1: T\n|a|b|\n").data
    start := 13
    stop := 36 }

/-! ## Helper lemmas -/

theorem joinNL_len : ∀ (cur : List Str), cur ≠ [] →
    (joinNL cur).length + 1 = sumLens cur := by
  intro cur
  induction cur with
  | nil => intro h; exact absurd rfl h
  | cons l ls ih =>
    intro _
    cases ls with
    | nil => simp [joinNL, sumLens]
    | cons l2 ls2 =>
      have h2 := ih (by simp)
      simp only [joinNL, sumLens, List.map_cons, List.sum_cons] at h2 ⊢
      simp only [List.length_append, List.length_cons]
      omega

theorem sumLens_append_one (cur : List Str) (l : Str) :
    sumLens (cur ++ [l]) = sumLens cur + (l.length + 1) := by
  simp [sumLens]

theorem takeLast_len_le (n : Nat) (s : Str) : (takeLast n s).length ≤ n := by
  simp [takeLast]
  omega

theorem drop_append_len (m r : Str) (k : Nat) :
    (m ++ r).drop (m.length + k) = r.drop k := by
  induction m with
  | nil => simp
  | cons a as ih =>
    simp only [List.cons_append, List.length_cons]
    have : as.length + 1 + k = (as.length + k) + 1 := by omega
    rw [this, List.drop_succ_cons, ih]

theorem matchCi_eq : ∀ (p s m r : Str), matchCi p s = some (m, r) →
    s = m ++ r ∧ m.length = p.length := by
  intro p
  induction p with
  | nil =>
    intro s m r h
    simp [matchCi] at h
    simp [h.1.symm, h.2.symm]
  | cons a as ih =>
    intro s m r h
    cases s with
    | nil => simp [matchCi] at h
    | cons c cs =>
      simp only [matchCi] at h
      by_cases hc : a.toLower = c.toLower
      · rw [if_pos hc] at h
        cases hmc : matchCi as cs with
        | none => rw [hmc] at h; simp at h
        | some mr' =>
          obtain ⟨m', r'⟩ := mr'
          rw [hmc] at h
          simp only [Option.map_some', Option.some.injEq, Prod.mk.injEq] at h
          obtain ⟨hm, hr⟩ := h
          obtain ⟨hs, hl⟩ := ih cs m' r' hmc
          subst hr
          simp [← hm, hs, hl]
      · rw [if_neg hc] at h; simp at h

theorem matchD1_eq {s m r : Str} (h : matchD1 s = some (m, r)) :
    s = m ++ r ∧ m ≠ [] := by
  have h' : (if s.takeWhile Char.isDigit = [] then (none : Option (Str × Str))
      else some (s.takeWhile Char.isDigit, s.dropWhile Char.isDigit)) = some (m, r) := h
  by_cases hd : s.takeWhile Char.isDigit = []
  · rw [if_pos hd] at h'; simp at h'
  · rw [if_neg hd] at h'
    simp only [Option.some.injEq, Prod.mk.injEq] at h'
    obtain ⟨hm, hr⟩ := h'
    constructor
    · rw [← hm, ← hr, List.takeWhile_append_dropWhile]
    · rw [← hm]; exact hd

theorem optLetterCI_eq (s : Str) :
    s = (optLetterCI s).1 ++ (optLetterCI s).2 := by
  cases s with
  | nil => simp [optLetterCI]
  | cons c cs =>
    simp only [optLetterCI]
    by_cases h : c.isAlpha = true <;> simp [h]

theorem matchTableRefCI_eq {s m r : Str} (h : matchTableRefCI s = some (m, r)) :
    s = m ++ r ∧ m ≠ [] := by
  unfold matchTableRefCI at h
  cases h1 : matchCi ("Table ").data s with
  | none => rw [h1] at h; simp at h
  | some mr1 =>
    obtain ⟨m1, r1⟩ := mr1
    rw [h1] at h
    simp only [Option.bind_eq_bind, Option.some_bind] at h
    cases h2 : matchD1 (optLetterCI r1).2 with
    | none => rw [h2] at h; simp at h
    | some mr2 =>
      obtain ⟨m2, r3⟩ := mr2
      rw [h2] at h
      simp only [Option.some_bind] at h
      split at h
      case h_2 => simp at h
      case h_1 r4 =>
        cases h3 : matchD1 r4 with
        | none => rw [h3] at h; simp at h
        | some mr3 =>
          obtain ⟨m3, r5⟩ := mr3
          rw [h3] at h
          simp only [Option.some_bind, Option.some.injEq, Prod.mk.injEq] at h
          obtain ⟨rfl, rfl⟩ := h
          obtain ⟨hs1, hl1⟩ := matchCi_eq _ _ _ _ h1
          have hs2 := optLetterCI_eq r1
          obtain ⟨hs3, _⟩ := matchD1_eq h2
          obtain ⟨hs4, _⟩ := matchD1_eq h3
          have hlen6 : m1.length = 6 := by rw [hl1]; rfl
          constructor
          · conv_lhs => rw [hs1]
            conv_lhs => rw [hs2]
            conv_lhs => rw [hs3]
            conv_lhs => rw [hs4]
            simp
          · intro hcon
            have hlen := congrArg List.length hcon
            simp [List.length_append, hlen6] at hlen

theorem matchSeeAlt_eq {s m r : Str} (h : matchSeeAlt s = some (m, r)) :
    s = m ++ r ∧ m ≠ [] := by
  unfold matchSeeAlt at h
  cases h1 : matchCi ("see ").data s with
  | none => rw [h1] at h; simp at h
  | some mr1 =>
    obtain ⟨m1, r1⟩ := mr1
    rw [h1] at h
    simp only [Option.bind_eq_bind, Option.some_bind] at h
    cases h2 : matchTableRefCI r1 with
    | none => rw [h2] at h; simp at h
    | some mr2 =>
      obtain ⟨m2, r2⟩ := mr2
      rw [h2] at h
      simp only [Option.some_bind, Option.some.injEq, Prod.mk.injEq] at h
      obtain ⟨rfl, rfl⟩ := h
      obtain ⟨hs1, hl1⟩ := matchCi_eq _ _ _ _ h1
      obtain ⟨hs2, hne2⟩ := matchTableRefCI_eq h2
      refine ⟨by rw [hs1, hs2]; simp, ?_⟩
      intro hcon
      exact hne2 (List.append_eq_nil.mp hcon).2

theorem matchReferAlt_eq {s m r : Str} (h : matchReferAlt s = some (m, r)) :
    s = m ++ r ∧ m ≠ [] := by
  unfold matchReferAlt at h
  cases h1 : matchCi ("refer to ").data s with
  | none => rw [h1] at h; simp at h
  | some mr1 =>
    obtain ⟨m1, r1⟩ := mr1
    rw [h1] at h
    simp only [Option.bind_eq_bind, Option.some_bind] at h
    cases h2 : matchTableRefCI r1 with
    | none => rw [h2] at h; simp at h
    | some mr2 =>
      obtain ⟨m2, r2⟩ := mr2
      rw [h2] at h
      simp only [Option.some_bind, Option.some.injEq, Prod.mk.injEq] at h
      obtain ⟨rfl, rfl⟩ := h
      obtain ⟨hs1, hl1⟩ := matchCi_eq _ _ _ _ h1
      obtain ⟨hs2, hne2⟩ := matchTableRefCI_eq h2
      refine ⟨by rw [hs1, hs2]; simp, ?_⟩
      intro hcon
      exact hne2 (List.append_eq_nil.mp hcon).2

theorem matchAt_eq {s m r : Str} (h : matchAt s = some (m, r)) :
    s = m ++ r ∧ m ≠ [] := by
  unfold matchAt at h
  cases h1 : matchSeeAlt s with
  | some mr =>
    rw [h1] at h
    cases h; exact matchSeeAlt_eq h1
  | none =>
    rw [h1] at h
    cases h2 : matchReferAlt s with
    | some mr =>
      rw [h2] at h
      cases h; exact matchReferAlt_eq h2
    | none =>
      rw [h2] at h
      exact matchTableRefCI_eq h

theorem scanPos_ge : ∀ (fuel : Nat) (s : Str) (pos : Nat),
    ∀ pm ∈ scanPos fuel s pos, pos ≤ pm.1 := by
  intro fuel
  induction fuel with
  | zero =>
    intro s pos pm hpm
    cases s <;> simp [scanPos] at hpm
  | succ f ih =>
    intro s pos pm hpm
    cases s with
    | nil => simp [scanPos] at hpm
    | cons c cs =>
      simp only [scanPos] at hpm
      cases hma : matchAt (c :: cs) with
      | some mr =>
        obtain ⟨m, r⟩ := mr
        rw [hma] at hpm
        simp only [List.mem_cons] at hpm
        rcases hpm with rfl | hpm
        · exact le_refl _
        · have := ih r (pos + m.length) pm hpm
          omega
      | none =>
        rw [hma] at hpm
        have := ih cs (pos + 1) pm hpm
        omega

theorem scanPos_chain : ∀ (fuel : Nat) (s : Str) (pos : Nat),
    List.Chain' (fun a b : Nat × Str => a.1 + a.2.length ≤ b.1)
      (scanPos fuel s pos) := by
  intro fuel
  induction fuel with
  | zero =>
    intro s pos
    cases s <;> simp [scanPos]
  | succ f ih =>
    intro s pos
    cases s with
    | nil => simp [scanPos]
    | cons c cs =>
      simp only [scanPos]
      cases hma : matchAt (c :: cs) with
      | some mr =>
        obtain ⟨m, r⟩ := mr
        rw [List.chain'_cons']
        refine ⟨?_, ih r (pos + m.length)⟩
        intro b hb
        have hmem : b ∈ scanPos f r (pos + m.length) := by
          cases hsc : scanPos f r (pos + m.length) with
          | nil => rw [hsc] at hb; simp at hb
          | cons x xs =>
            rw [hsc] at hb
            simp only [List.head?_cons, Option.mem_def, Option.some.injEq] at hb
            subst hb
            exact List.mem_cons_self _ _
        exact scanPos_ge f r (pos + m.length) b hmem
      | none =>
        exact ih cs (pos + 1)

theorem scanPos_matchAt : ∀ (fuel : Nat) (s : Str) (pos : Nat),
    ∀ pm ∈ scanPos fuel s pos,
      pos ≤ pm.1 ∧ ∃ r, matchAt (s.drop (pm.1 - pos)) = some (pm.2, r) := by
  intro fuel
  induction fuel with
  | zero =>
    intro s pos pm hpm
    cases s <;> simp [scanPos] at hpm
  | succ f ih =>
    intro s pos pm hpm
    cases s with
    | nil => simp [scanPos] at hpm
    | cons c cs =>
      simp only [scanPos] at hpm
      cases hma : matchAt (c :: cs) with
      | some mr =>
        obtain ⟨m, r⟩ := mr
        rw [hma] at hpm
        simp only [List.mem_cons] at hpm
        rcases hpm with rfl | hpm
        · refine ⟨le_refl _, r, ?_⟩
          simpa using hma
        · obtain ⟨hge, r', hr'⟩ := ih r (pos + m.length) pm hpm
          obtain ⟨hs, _⟩ := matchAt_eq hma
          refine ⟨by omega, r', ?_⟩
          have hsplit : pm.1 - pos = m.length + (pm.1 - (pos + m.length)) := by
            omega
          rw [hs, hsplit, drop_append_len]
          exact hr'
      | none =>
        rw [hma] at hpm
        obtain ⟨hge, r', hr'⟩ := ih cs (pos + 1) pm hpm
        refine ⟨by omega, r', ?_⟩
        have hsplit : pm.1 - pos = (pm.1 - (pos + 1)) + 1 := by omega
        rw [hsplit, List.drop_succ_cons]
        exact hr'

theorem tmGet_mem {m : List (Str × Str)} {k v : Str} (h : tmGet m k = some v) :
    ∃ p ∈ m, p.1 = k := by
  unfold tmGet at h
  cases hf : m.reverse.find? (fun p => p.1 == k) with
  | none => rw [hf] at h; simp at h
  | some p =>
    have hp := List.find?_some hf
    have hmem := List.mem_of_find?_eq_some hf
    exact ⟨p, List.mem_reverse.mp hmem, by simpa using hp⟩

theorem buildTableMap_mem : ∀ (chunks : List Chunk) (p : Str × Str),
    p ∈ buildTableMap chunks →
    ∃ c ∈ chunks, isTableKind c = true ∧ c.tableId = some p.1 := by
  intro chunks
  induction chunks with
  | nil => intro p hp; simp [buildTableMap] at hp
  | cons c cs ih =>
    intro p hp
    simp only [buildTableMap, List.mem_append] at hp
    rcases hp with hp | hp
    · unfold tableMapEntry at hp
      by_cases hk : isTableKind c = true
      · rw [if_pos hk] at hp
        cases hid : c.tableId with
        | none => rw [hid] at hp; simp at hp
        | some id =>
          rw [hid] at hp
          have hp' : p ∈ (if id ≠ [] then
              [(id, c.tableTitle.getD ("Unknown Table").data)] else []) := hp
          by_cases hne : id ≠ []
          · rw [if_pos hne] at hp'
            simp only [List.mem_singleton] at hp'
            subst hp'
            exact ⟨c, List.mem_cons_self _ _, hk, hid⟩
          · rw [if_neg hne] at hp'; simp at hp'
      · rw [if_neg hk] at hp; simp at hp
    · obtain ⟨c', hc', hx⟩ := ih p hp
      exact ⟨c', List.mem_cons_of_mem _ hc', hx⟩

/-- C5: for every chunk content, the cross-reference scan emits
non-overlapping mentions (each match starts at or after the end of the
previous one, so the bare `Table <id>` nested inside a longer
`see Table <id>` / `refer to Table <id>` occurrence is never emitted as a
second entry), every emitted mention is nonempty and is exactly the
anchored match of the pattern at its position, and whenever the composite
`see Table <id>` form matches at that position the emitted text is that
longest form. -/
theorem cross_ref_scan_dedup (s : Str) :
    List.Chain' (fun a b : Nat × Str => a.1 + a.2.length ≤ b.1) (findIter s) ∧
    ∀ pm ∈ findIter s,
      pm.2 ≠ [] ∧
      (∃ r, matchAt (s.drop pm.1) = some (pm.2, r)) ∧
      ∀ m' r', matchSeeAlt (s.drop pm.1) = some (m', r') → pm.2 = m' := by
  refine ⟨scanPos_chain s.length s 0, ?_⟩
  intro pm hpm
  obtain ⟨_, r, hr⟩ := scanPos_matchAt s.length s 0 pm hpm
  rw [Nat.sub_zero] at hr
  obtain ⟨_, hne⟩ := matchAt_eq hr
  refine ⟨hne, ⟨r, hr⟩, ?_⟩
  intro m' r' hsee
  have hma : matchAt (s.drop pm.1) = some (m', r') := by
    unfold matchAt
    rw [hsee]
  rw [hr] at hma
  have h2 := Option.some.inj hma
  exact congrArg Prod.fst h2

/-- Witness for C5 at a concrete content: the scan emits the composite
mention at offset 7 and no nested bare mention. -/
theorem cross_ref_scan_dedup_witness :
    ("see Table 2.1").data ≠ ([] : Str) ∧
    (∃ r, matchAt ((("Please see Table 2.1 for rates").data).drop 7) =
      some (("see Table 2.1").data, r)) ∧
    ∀ m' r',
      matchSeeAlt ((("Please see Table 2.1 for rates").data).drop 7) = some (m', r') →
      ("see Table 2.1").data = m' :=
  (cross_ref_scan_dedup (("Please see Table 2.1 for rates").data)).2
    (7, ("see Table 2.1").data) (by decide)

/-- C4: every cross-reference entry resolved into any chunk by
`_enhance_with_cross_references` points at a table id that some Table or
TablePart chunk of the same document actually carries (mentions whose id
is not in the table map are dropped without record). -/
theorem cross_ref_resolution_sound (chunks : List Chunk) :
    ∀ c ∈ enhanceWithCrossRefs chunks, ∀ ref ∈ c.crossRefs,
      ∃ c' ∈ chunks, isTableKind c' = true ∧
        c'.tableId = some ref.referencedTable := by
  intro c hc ref href
  unfold enhanceWithCrossRefs at hc
  obtain ⟨c0, hc0, rfl⟩ := List.mem_map.mp hc
  unfold enhanceChunk at href
  simp only [List.mem_filterMap] at href
  obtain ⟨pm, hpm, hres⟩ := href
  unfold resolveRef at hres
  cases hsid : searchTableId pm.2 with
  | none => rw [hsid] at hres; simp at hres
  | some id =>
    rw [hsid] at hres
    have hres' : (match tmGet (buildTableMap chunks) id with
        | some title => some (⟨id, title, pm.2⟩ : CrossRef)
        | none => none) = some ref := hres
    cases htm : tmGet (buildTableMap chunks) id with
    | none => rw [htm] at hres'; simp at hres'
    | some title =>
      rw [htm] at hres'
      simp only [Option.some.injEq] at hres'
      obtain ⟨p, hpmem, hpk⟩ := tmGet_mem htm
      obtain ⟨c', hc', hkind, hid⟩ := buildTableMap_mem chunks p hpmem
      refine ⟨c', hc', hkind, ?_⟩
      rw [hid, hpk, ← hres']

/-- Witness for C4 at a concrete two-chunk document. -/
theorem cross_ref_resolution_sound_witness :
    ∃ c' ∈ [tableChunkW, textChunkW], isTableKind c' = true ∧
      c'.tableId = some ((⟨("1.1").data, ("Rates").data,
        ("see Table 1.1").data⟩ : CrossRef).referencedTable) :=
  cross_ref_resolution_sound [tableChunkW, textChunkW]
    (enhanceChunk (buildTableMap [tableChunkW, textChunkW]) textChunkW)
    (by decide)
    ⟨("1.1").data, ("Rates").data, ("see Table 1.1").data⟩
    (by decide)

theorem mkPart_len (sec : TableSec) (H : Str) (count : Nat) (cur : List Str)
    (h : cur ≠ []) :
    (mkPart sec H count cur).content.length = H.length + sumLens cur := by
  show (H ++ '\n' :: joinNL cur).length = _
  have := joinNL_len cur h
  simp only [List.length_append, List.length_cons]
  omega

theorem mkPart_case (cfg : SplitterConfig) (sec : TableSec) (H : Str)
    (D : List Str) (count : Nat) (cur : List Str) (size : Nat)
    (hsize : size = H.length + sumLens cur)
    (hinv : 2 ≤ cur.length → size ≤ cfg.chunkSize)
    (hcur : ∀ l ∈ cur, l ∈ D) (hne : cur ≠ []) :
    (mkPart sec H count cur).content.length ≤ cfg.chunkSize ∨
    ∃ l ∈ D, (mkPart sec H count cur).content = H ++ '\n' :: l := by
  cases cur with
  | nil => exact absurd rfl hne
  | cons l0 rest =>
    cases rest with
    | nil =>
      right
      refine ⟨l0, hcur l0 (List.mem_cons_self _ _), ?_⟩
      show H ++ '\n' :: joinNL [l0] = H ++ '\n' :: l0
      rfl
    | cons l1 r2 =>
      left
      rw [mkPart_len sec H count _ hne, ← hsize]
      refine hinv ?_
      simp only [List.length_cons]
      omega

theorem splitLoop_size (cfg : SplitterConfig) (sec : TableSec) (H : Str)
    (D : List Str) :
    ∀ (ls : List Str) (count : Nat) (cur : List Str) (size : Nat),
      size = H.length + sumLens cur →
      (2 ≤ cur.length → size ≤ cfg.chunkSize) →
      (∀ l ∈ cur, l ∈ D) → (∀ l ∈ ls, l ∈ D) →
      ∀ c ∈ splitLoop cfg sec H count cur size ls,
        c.content.length ≤ cfg.chunkSize ∨
        ∃ l ∈ D, c.content = H ++ '\n' :: l := by
  intro ls
  induction ls with
  | nil =>
    intro count cur size hsize hinv hcur _ c hc
    simp only [splitLoop] at hc
    by_cases hne : cur ≠ []
    · rw [if_pos hne] at hc
      simp only [List.mem_singleton] at hc
      subst hc
      exact mkPart_case cfg sec H D count cur size hsize hinv hcur hne
    · rw [if_neg hne] at hc; simp at hc
  | cons l ls ih =>
    intro count cur size hsize hinv hcur hls c hc
    simp only [splitLoop] at hc
    by_cases hflush : size + (l.length + 1) > cfg.chunkSize ∧ cur ≠ []
    · rw [if_pos hflush] at hc
      simp only [List.mem_cons] at hc
      rcases hc with rfl | hc
      · exact mkPart_case cfg sec H D count cur size hsize hinv hcur hflush.2
      · refine ih (count + 1) [l] (H.length + (l.length + 1)) ?_ ?_ ?_ ?_ c hc
        · simp [sumLens]
        · intro h2; simp at h2
        · intro x hx
          simp only [List.mem_singleton] at hx
          subst hx
          exact hls x (List.mem_cons_self _ _)
        · intro x hx
          exact hls x (List.mem_cons_of_mem _ hx)
    · rw [if_neg hflush] at hc
      refine ih count (cur ++ [l]) (size + (l.length + 1)) ?_ ?_ ?_ ?_ c hc
      · rw [sumLens_append_one, hsize]; omega
      · intro h2
        rcases Decidable.not_and_iff_or_not.mp hflush with h | h
        · omega
        · simp only [ne_eq, Decidable.not_not] at h
          subst h
          simp at h2
      · intro x hx
        rcases List.mem_append.mp hx with hx | hx
        · exact hcur x hx
        · simp only [List.mem_singleton] at hx
          subst hx
          exact hls x (List.mem_cons_self _ _)
      · intro x hx
        exact hls x (List.mem_cons_of_mem _ hx)

theorem splitLoop_headed (cfg : SplitterConfig) (sec : TableSec) (H : Str) :
    ∀ (ls : List Str) (count : Nat) (cur : List Str) (size : Nat),
      ∀ c ∈ splitLoop cfg sec H count cur size ls,
        ∃ t, c.content = H ++ '\n' :: t := by
  intro ls
  induction ls with
  | nil =>
    intro count cur size c hc
    simp only [splitLoop] at hc
    by_cases hne : cur ≠ []
    · rw [if_pos hne] at hc
      simp only [List.mem_singleton] at hc
      subst hc
      exact ⟨joinNL cur, rfl⟩
    · rw [if_neg hne] at hc; simp at hc
  | cons l ls ih =>
    intro count cur size c hc
    simp only [splitLoop] at hc
    by_cases hflush : size + (l.length + 1) > cfg.chunkSize ∧ cur ≠ []
    · rw [if_pos hflush] at hc
      simp only [List.mem_cons] at hc
      rcases hc with rfl | hc
      · exact ⟨joinNL cur, rfl⟩
      · exact ih _ _ _ c hc
    · rw [if_neg hflush] at hc
      exact ih _ _ _ c hc

theorem splitLoop_kind (cfg : SplitterConfig) (sec : TableSec) (H : Str) :
    ∀ (ls : List Str) (count : Nat) (cur : List Str) (size : Nat),
      ∀ c ∈ splitLoop cfg sec H count cur size ls,
        c.chunkType = ChunkType.tablePart := by
  intro ls
  induction ls with
  | nil =>
    intro count cur size c hc
    simp only [splitLoop] at hc
    by_cases hne : cur ≠ []
    · rw [if_pos hne] at hc
      simp only [List.mem_singleton] at hc
      subst hc
      rfl
    · rw [if_neg hne] at hc; simp at hc
  | cons l ls ih =>
    intro count cur size c hc
    simp only [splitLoop] at hc
    by_cases hflush : size + (l.length + 1) > cfg.chunkSize ∧ cur ≠ []
    · rw [if_pos hflush] at hc
      simp only [List.mem_cons] at hc
      rcases hc with rfl | hc
      · rfl
      · exact ih _ _ _ c hc
    · rw [if_neg hflush] at hc
      exact ih _ _ _ c hc

theorem splitLoop_idx (cfg : SplitterConfig) (sec : TableSec) (H : Str) :
    ∀ (ls : List Str) (count : Nat) (cur : List Str) (size : Nat),
      (splitLoop cfg sec H count cur size ls).map Chunk.partIndex =
      (List.range' (count + 1)
        (splitLoop cfg sec H count cur size ls).length).map some := by
  intro ls
  induction ls with
  | nil =>
    intro count cur size
    simp only [splitLoop]
    by_cases hne : cur ≠ []
    · rw [if_pos hne]
      simp [mkPart, List.range']
    · rw [if_neg hne]
      simp
  | cons l ls ih =>
    intro count cur size
    simp only [splitLoop]
    by_cases hflush : size + (l.length + 1) > cfg.chunkSize ∧ cur ≠ []
    · rw [if_pos hflush]
      simp only [List.map_cons, List.length_cons, List.range'_succ]
      rw [ih (count + 1)]
      rfl
    · rw [if_neg hflush]
      exact ih _ _ _

theorem mergeGo_size (K ov : Nat) : ∀ (ps : List Str) (cur : Str),
    cur.length ≤ K → ∀ c ∈ mergeGo K ov cur ps,
      c.length ≤ K ∨ (c ∈ ps ∧ K < c.length) := by
  intro ps
  induction ps with
  | nil =>
    intro cur hcur c hc
    simp only [mergeGo] at hc
    by_cases hne : cur ≠ []
    · rw [if_pos hne] at hc
      simp only [List.mem_singleton] at hc
      subst hc
      exact Or.inl hcur
    · rw [if_neg hne] at hc; simp at hc
  | cons p ps ih =>
    intro cur hcur c hc
    simp only [mergeGo] at hc
    by_cases h1 : cur.length + p.length ≤ K
    · rw [if_pos h1] at hc
      have hlen : (cur ++ p).length ≤ K := by
        simp only [List.length_append]; omega
      rcases ih (cur ++ p) hlen c hc with h | ⟨hm, hl⟩
      · exact Or.inl h
      · exact Or.inr ⟨List.mem_cons_of_mem _ hm, hl⟩
    · rw [if_neg h1] at hc
      by_cases h2 : p.length ≤ K
      · rw [if_pos h2] at hc
        rcases List.mem_append.mp hc with hc | hc
        · by_cases hne : cur ≠ []
          · rw [if_pos hne] at hc
            simp only [List.mem_singleton] at hc
            subst hc
            exact Or.inl hcur
          · rw [if_neg hne] at hc; simp at hc
        · have hlen : (takeLast (min ov (K - p.length)) cur ++ p).length ≤ K := by
            have := takeLast_len_le (min ov (K - p.length)) cur
            simp only [List.length_append]
            omega
          rcases ih _ hlen c hc with h | ⟨hm, hl⟩
          · exact Or.inl h
          · exact Or.inr ⟨List.mem_cons_of_mem _ hm, hl⟩
      · rw [if_neg h2] at hc
        rcases List.mem_append.mp hc with hc | hc
        · by_cases hne : cur ≠ []
          · rw [if_pos hne] at hc
            simp only [List.mem_singleton] at hc
            subst hc
            exact Or.inl hcur
          · rw [if_neg hne] at hc; simp at hc
        · rcases List.mem_cons.mp hc with rfl | hc
          · exact Or.inr ⟨List.mem_cons_self _ _, by omega⟩
          · have hlen : (takeLast (min ov K) p).length ≤ K :=
              le_trans (takeLast_len_le _ _) (min_le_right _ _)
            rcases ih _ hlen c hc with h | ⟨hm, hl⟩
            · exact Or.inl h
            · exact Or.inr ⟨List.mem_cons_of_mem _ hm, hl⟩

theorem mkTextChunks_content (ctx : Str) (total : Nat) :
    ∀ (ps : List Str) (i : Nat), ∀ c ∈ mkTextChunks ctx total i ps,
      c.content ∈ ps := by
  intro ps
  induction ps with
  | nil => intro i c hc; simp [mkTextChunks] at hc
  | cons p ps ih =>
    intro i c hc
    simp only [mkTextChunks, List.mem_cons] at hc
    rcases hc with rfl | hc
    · exact List.mem_cons_self _ _
    · exact List.mem_cons_of_mem _ (ih (i + 1) c hc)

/-- C1: every chunk emitted by the row-splitting of a large table has
content length at most `chunk_size`, except a part made of the mandatory
header and a single data row, which is emitted unmodified; and every chunk
of the (spec-modelled) generic text chunker has content length at most
`chunk_size`, except a single indivisible piece that no separator could
divide, which is passed through unmodified. -/
theorem chunk_size_invariant :
    (∀ (cfg : SplitterConfig) (sec : TableSec), ∀ c ∈ splitLargeTable cfg sec,
      c.content.length ≤ cfg.chunkSize ∨
      ∃ l ∈ dataLinesOf sec.content,
        c.content = headerTextOf sec.content ++ '\n' :: l) ∧
    (∀ (cfg : SplitterConfig) (content context : Str),
      ∀ c ∈ processTextSection cfg content context,
        c.content.length ≤ cfg.chunkSize ∨
        (c.content ∈ recSplitSpec cfg.chunkSize defaultSeps [content] ∧
          cfg.chunkSize < c.content.length)) := by
  constructor
  · intro cfg sec c hc
    unfold splitLargeTable at hc
    refine splitLoop_size cfg sec (headerTextOf sec.content)
      (dataLinesOf sec.content) (dataLinesOf sec.content) 0 []
      (headerTextOf sec.content).length ?_ ?_ ?_ ?_ c hc
    · simp [sumLens]
    · intro h2; simp at h2
    · intro x hx; simp at hx
    · intro x hx; exact hx
  · intro cfg content ctx c hc
    unfold processTextSection at hc
    have hcc := mkTextChunks_content ctx _ _ 0 c hc
    unfold textSplitSpec at hcc
    rcases mergeGo_size cfg.chunkSize cfg.chunkOverlap _ [] (by simp) c.content
      hcc with h | ⟨hm, hl⟩
    · exact Or.inl h
    · exact Or.inr ⟨hm, hl⟩

/-- Witness for C1: a part of a concrete oversized table, and a chunk of a
concrete text section. -/
theorem chunk_size_invariant_witness :
    (((splitLargeTable ⟨20, 5, true⟩ tableSecW).getD 0 dChunk).content.length ≤ 20 ∨
      ∃ l ∈ dataLinesOf tableSecW.content,
        ((splitLargeTable ⟨20, 5, true⟩ tableSecW).getD 0 dChunk).content =
          headerTextOf tableSecW.content ++ '\n' :: l) ∧
    (((processTextSection ⟨5, 1, true⟩ (("ab cd ef").data) []).getD 0 dChunk).content.length ≤ 5 ∨
      (((processTextSection ⟨5, 1, true⟩ (("ab cd ef").data) []).getD 0 dChunk).content ∈
          recSplitSpec 5 defaultSeps [("ab cd ef").data] ∧
        5 < ((processTextSection ⟨5, 1, true⟩ (("ab cd ef").data) []).getD 0 dChunk).content.length)) :=
  ⟨chunk_size_invariant.1 ⟨20, 5, true⟩ tableSecW _ (by decide),
   chunk_size_invariant.2 ⟨5, 1, true⟩ (("ab cd ef").data) [] _ (by decide)⟩

/-- C3: every part chunk of a row-split table starts with the same
byte-identical header block (title line, header rows and separator row,
joined by newlines), followed by a newline. -/
theorem table_part_header_dup (cfg : SplitterConfig) (sec : TableSec) :
    ∀ c ∈ splitLargeTable cfg sec,
      ∃ t, c.content = headerTextOf sec.content ++ '\n' :: t := by
  intro c hc
  unfold splitLargeTable at hc
  exact splitLoop_headed cfg sec (headerTextOf sec.content) _ 0 [] _ c hc

/-- Witness for C3 at a concrete oversized table. -/
theorem table_part_header_dup_witness :
    ∃ t, ((splitLargeTable ⟨20, 5, true⟩ tableSecW).getD 0 dChunk).content =
      headerTextOf tableSecW.content ++ '\n' :: t :=
  table_part_header_dup ⟨20, 5, true⟩ tableSecW _ (by decide)

/-- C8: the part indices of the chunks a table is split into are exactly
`1, 2, ..., n` in emission (source row) order, with no gaps and no
repetitions. -/
theorem table_part_indices (cfg : SplitterConfig) (sec : TableSec) :
    (splitLargeTable cfg sec).map Chunk.partIndex =
    (List.range' 1 (splitLargeTable cfg sec).length).map some := by
  unfold splitLargeTable
  exact splitLoop_idx cfg sec (headerTextOf sec.content) _ 0 [] _

/-- C6: a table section whose content fits in `chunk_size` becomes exactly
one whole-Table chunk carrying the untruncated content, table id and table
title; a larger one is instead routed to row-splitting, which emits only
TablePart chunks. -/
theorem table_section_decision (cfg : SplitterConfig) (sec : TableSec) :
    (sec.content.length ≤ cfg.chunkSize →
      processTableSection cfg sec =
        [{ content := sec.content
           chunkType := .table
           tableId := some sec.tableId
           tableTitle := some sec.tableTitle
           context := sec.context }]) ∧
    (cfg.chunkSize < sec.content.length →
      processTableSection cfg sec = splitLargeTable cfg sec ∧
      ∀ c ∈ processTableSection cfg sec, c.chunkType = ChunkType.tablePart) := by
  constructor
  · intro h
    unfold processTableSection
    rw [if_pos h]
  · intro h
    have hnot : ¬ sec.content.length ≤ cfg.chunkSize := by omega
    refine ⟨?_, ?_⟩
    · unfold processTableSection
      rw [if_neg hnot]
    · intro c hc
      unfold processTableSection at hc
      rw [if_neg hnot] at hc
      unfold splitLargeTable at hc
      exact splitLoop_kind cfg sec (headerTextOf sec.content) _ 0 [] _ c hc

/-- Witness for C6: a concrete small table and a concrete oversized one. -/
theorem table_section_decision_witness :
    (processTableSection ⟨1000, 200, true⟩ smallSecW =
      [{ content := smallSecW.content
         chunkType := .table
         tableId := some smallSecW.tableId
         tableTitle := some smallSecW.tableTitle
         context := smallSecW.context }]) ∧
    (processTableSection ⟨20, 5, true⟩ tableSecW =
        splitLargeTable ⟨20, 5, true⟩ tableSecW ∧
      ∀ c ∈ processTableSection ⟨20, 5, true⟩ tableSecW,
        c.chunkType = ChunkType.tablePart) :=
  ⟨(table_section_decision ⟨1000, 200, true⟩ smallSecW).1 (by decide),
   (table_section_decision ⟨20, 5, true⟩ tableSecW).2 (by decide)⟩

/-- C7 fails as stated: with `overlap_size = max_chunk_size = 1000` (an
instance of `overlap_size ≥ max_chunk_size`) construction succeeds — no
configuration error is raised, neither by the repository's own `__init__`
(which performs no validation) nor by the delegated base-splitter
constructor (which rejects only the strict inequality). -/
theorem splitter_init_accepts_equal_overlap :
    mkSplitter 1000 1000 true = Except.ok ⟨1000, 1000, true⟩ := by
  rfl

/-- C7 amended: construction fails eagerly with a configuration error
exactly when `overlap_size > max_chunk_size` (the check performed by the
base splitter's constructor); `overlap_size = max_chunk_size` is
accepted. -/
theorem splitter_init_config_check (cs co : Nat) (p : Bool) :
    (∃ e, mkSplitter cs co p = Except.error e) ↔ cs < co := by
  by_cases h : cs < co <;> simp [mkSplitter, h]

/-- Witness for the amended C7: a strictly larger overlap is rejected. -/
theorem splitter_init_config_check_witness :
    ∃ e, mkSplitter 1000 1200 true = Except.error e :=
  (splitter_init_config_check 1000 1200 true).mpr (by decide)

/-- C9: numeric extraction on `"$1,250.50 for 12 months at 5.25%"` yields
rates `[5.25]`, dollar amounts `[1250.50]` (thousands separator stripped)
and terms `[12]`, and the payload is attached (is `some`) since at least
one list is nonempty. -/
theorem numeric_extraction_example :
    extractNumericalData (("$1,250.50 for 12 months at 5.25%").data) =
      some { rates := [(5.25 : ℚ)]
             dollarAmounts := [(1250.50 : ℚ)]
             terms := [12] } := by
  have h1 : extractNumericalData (("$1,250.50 for 12 months at 5.25%").data) =
      some { rates := [parseDecimal (("5.25").data)]
             dollarAmounts := [parseDecimal (("1250.50").data)]
             terms := [12] } := rfl
  rw [h1]
  have h2 : parseDecimal (("5.25").data) = (5.25 : ℚ) := by
    have hv : parseDecimal (("5.25").data) =
        ((5 : ℕ) : ℚ) + ((25 : ℕ) : ℚ) / (10 : ℚ) ^ (2 : ℕ) := rfl
    rw [hv]
    norm_num
  have h3 : parseDecimal (("1250.50").data) = (1250.50 : ℚ) := by
    have hv : parseDecimal (("1250.50").data) =
        ((1250 : ℕ) : ℚ) + ((50 : ℕ) : ℚ) / (10 : ℚ) ^ (2 : ℕ) := rfl
    rw [hv]
    norm_num
  rw [h2, h3]

/-- C10: `cross_references_found` counts the chunks carrying at least one
resolved cross-reference, not the reference entries; a chunk with two
resolved references contributes exactly one. -/
theorem cross_refs_found_counts_chunks :
    (∀ chunks : List Chunk,
      (getTableSummary chunks).crossReferencesFound =
        (chunks.filter fun c => !c.crossRefs.isEmpty).length) ∧
    (getTableSummary [demoChunk]).crossReferencesFound = 1 ∧
    demoChunk.crossRefs.length = 2 := by
  refine ⟨?_, by decide, by decide⟩
  intro chunks
  show countChunksWithRefs chunks = _
  induction chunks with
  | nil => rfl
  | cons c cs ih =>
    rw [List.filter_cons]
    simp only [countChunksWithRefs]
    by_cases h : c.crossRefs = []
    · have hb : (!c.crossRefs.isEmpty) = false := by simp [h]
      rw [hb]
      simp only [if_neg (by simp [h] : ¬ c.crossRefs ≠ []), Bool.false_eq_true,
        if_false]
      omega
    · have hb : (!c.crossRefs.isEmpty) = true := by
        simp [List.isEmpty_iff, h]
      rw [hb]
      simp only [if_pos h, if_true]
      simp [ih]
      omega

theorem pyStrip_decomp (s : Str) :
    ∃ a b, s = a ++ pyStrip s ++ b ∧ (∀ c ∈ a, isPySpace c = true) ∧
      (∀ c ∈ b, isPySpace c = true) := by
  refine ⟨s.takeWhile isPySpace,
    ((s.dropWhile isPySpace).reverse.takeWhile isPySpace).reverse, ?_, ?_, ?_⟩
  · conv_lhs => rw [← List.takeWhile_append_dropWhile isPySpace s]
    rw [List.append_assoc]
    congr 1
    calc s.dropWhile isPySpace
        = (s.dropWhile isPySpace).reverse.reverse := (List.reverse_reverse _).symm
      _ = ((s.dropWhile isPySpace).reverse.takeWhile isPySpace ++
            (s.dropWhile isPySpace).reverse.dropWhile isPySpace).reverse := by
          rw [List.takeWhile_append_dropWhile]
      _ = ((s.dropWhile isPySpace).reverse.dropWhile isPySpace).reverse ++
            ((s.dropWhile isPySpace).reverse.takeWhile isPySpace).reverse := by
          rw [List.reverse_append]
      _ = pyStrip s ++
            ((s.dropWhile isPySpace).reverse.takeWhile isPySpace).reverse := rfl
  · intro c hc
    exact List.mem_takeWhile_imp hc
  · intro c hc
    rw [List.mem_reverse] at hc
    exact List.mem_takeWhile_imp hc

theorem tablesValidB_le (text : Str) : ∀ (ts : List TableB) (le : Nat),
    tablesValidB text le ts = true → le ≤ text.length := by
  intro ts
  induction ts with
  | nil =>
    intro le h
    simpa [tablesValidB] using h
  | cons t ts ih =>
    intro le h
    simp only [tablesValidB, Bool.and_eq_true, decide_eq_true_eq] at h
    obtain ⟨⟨⟨h1, h2⟩, _⟩, h4⟩ := h
    have := ih t.stop h4
    omega

theorem slice_append_drop (text : Str) (a b : Nat) (hab : a ≤ b) :
    sliceStr text a b ++ text.drop b = text.drop a := by
  unfold sliceStr
  conv_rhs => rw [← List.take_append_drop (b - a) (text.drop a)]
  congr 1
  rw [List.drop_drop]
  congr 1
  omega

theorem splitAround_weave (text : Str) : ∀ (tables : List TableB) (lastEnd : Nat),
    tablesValidB text lastEnd tables = true →
    ∃ (w0 : Str) (pairs : List (Str × Str)),
      (∀ c ∈ w0, isPySpace c = true) ∧
      (∀ pr ∈ pairs, ∀ c ∈ pr.2, isPySpace c = true) ∧
      pairs.map Prod.fst = (splitAroundGo text lastEnd tables).map Section.content ∧
      weave w0 pairs = text.drop lastEnd := by
  intro tables
  induction tables with
  | nil =>
    intro le h
    simp only [tablesValidB, decide_eq_true_eq] at h
    simp only [splitAroundGo]
    by_cases hlt : le < text.length
    · rw [if_pos hlt]
      obtain ⟨a, b, hdec, ha, hb⟩ := pyStrip_decomp (text.drop le)
      by_cases hrem : pyStrip (text.drop le) ≠ []
      · rw [if_pos hrem]
        refine ⟨a, [(pyStrip (text.drop le), b)], ha, ?_, ?_, ?_⟩
        · intro pr hpr
          simp only [List.mem_singleton] at hpr
          subst hpr
          exact hb
        · simp [Section.content]
        · simp only [weave]
          conv_rhs => rw [hdec]
      · rw [if_neg hrem]
        simp only [ne_eq, Decidable.not_not] at hrem
        rw [hrem] at hdec
        refine ⟨text.drop le, [], ?_, by simp, by simp, by simp [weave]⟩
        intro c hc
        rw [hdec] at hc
        simp only [List.append_nil, List.nil_append, List.mem_append] at hc
        rcases hc with hc | hc
        · exact ha c hc
        · exact hb c hc
    · rw [if_neg hlt]
      refine ⟨[], [], by simp, by simp, by simp, ?_⟩
      simp only [weave]
      exact (List.drop_eq_nil_of_le (by omega)).symm
  | cons t ts ih =>
    intro le h
    simp only [tablesValidB, Bool.and_eq_true, decide_eq_true_eq] at h
    obtain ⟨⟨⟨h1, h2⟩, h3⟩, h4⟩ := h
    obtain ⟨w0', pairs', hw', hp', hmap', hweave'⟩ := ih t.stop h4
    have hkey : text.drop le =
        sliceStr text le t.start ++ (t.content ++ text.drop t.stop) := by
      rw [h3, slice_append_drop text t.start t.stop h2,
        slice_append_drop text le t.start h1]
    simp only [splitAroundGo]
    by_cases hgap : le < t.start
    · rw [if_pos hgap]
      obtain ⟨a, b, hdec, ha, hb⟩ := pyStrip_decomp (sliceStr text le t.start)
      by_cases hrem : pyStrip (sliceStr text le t.start) ≠ []
      · rw [if_pos hrem]
        refine ⟨a, (pyStrip (sliceStr text le t.start), b) ::
          (t.content, w0') :: pairs', ha, ?_, ?_, ?_⟩
        · intro pr hpr
          rcases List.mem_cons.mp hpr with rfl | hpr
          · exact hb
          rcases List.mem_cons.mp hpr with rfl | hpr
          · exact hw'
          · exact hp' pr hpr
        · simp [Section.content, hmap']
        · simp only [weave]
          rw [hweave']
          conv_rhs => rw [hkey]
          conv_rhs => rw [hdec]
          simp [List.append_assoc]
      · rw [if_neg hrem]
        simp only [ne_eq, Decidable.not_not] at hrem
        rw [hrem] at hdec
        refine ⟨sliceStr text le t.start, (t.content, w0') :: pairs', ?_, ?_, ?_, ?_⟩
        · intro c hc
          rw [hdec] at hc
          simp only [List.append_nil, List.nil_append, List.mem_append] at hc
          rcases hc with hc | hc
          · exact ha c hc
          · exact hb c hc
        · intro pr hpr
          rcases List.mem_cons.mp hpr with rfl | hpr
          · exact hw'
          · exact hp' pr hpr
        · simp [Section.content, hmap']
        · simp only [weave]
          rw [hweave', hkey]
          simp [List.append_assoc]
    · rw [if_neg hgap]
      have hstart : t.start = le := by omega
      have hslice : sliceStr text le t.start = [] := by
        rw [hstart]
        simp [sliceStr]
      refine ⟨[], (t.content, w0') :: pairs', by simp, ?_, ?_, ?_⟩
      · intro pr hpr
        rcases List.mem_cons.mp hpr with rfl | hpr
        · exact hw'
        · exact hp' pr hpr
      · simp [Section.content, hmap']
      · simp only [weave]
        rw [hweave', hkey, hslice]
        simp

/-- C2: for every text and every sorted, non-overlapping boundary list
whose contents are the spanned slices, the emitted section contents, in
emission order, reproduce the original text exactly once the whitespace
trimmed off each section (and the dropped whitespace-only gaps) is put
back between them. -/
theorem section_concat_roundtrip (text : Str) (tables : List TableB)
    (h : tablesValidB text 0 tables = true) :
    ∃ (w0 : Str) (pairs : List (Str × Str)),
      (∀ c ∈ w0, isPySpace c = true) ∧
      (∀ pr ∈ pairs, ∀ c ∈ pr.2, isPySpace c = true) ∧
      pairs.map Prod.fst = (splitAroundTables text tables).map Section.content ∧
      weave w0 pairs = text := by
  obtain ⟨w0, pairs, h1, h2, h3, h4⟩ := splitAround_weave text tables 0 h
  exact ⟨w0, pairs, h1, h2, h3, by simpa using h4⟩

/-- Witness for C2 at a concrete one-table document. -/
theorem section_concat_roundtrip_witness :
    ∃ (w0 : Str) (pairs : List (Str × Str)),
      (∀ c ∈ w0, isPySpace c = true) ∧
      (∀ pr ∈ pairs, ∀ c ∈ pr.2, isPySpace c = true) ∧
      pairs.map Prod.fst = (splitAroundTables textW2 [tableW2]).map Section.content ∧
      weave w0 pairs = textW2 :=
  section_concat_roundtrip textW2 [tableW2] (by decide)

end BankingRag
